import Mathlib

/-!
Verification of the property-tree model implemented in `src/qtproperty.cpp`
(classes `QtProperty`, `QtContainerProperty`, `QtListProperty`,
`QtDictProperty`, `QtGroupProperty`).

The embedding works at two levels, matching the two kinds of claims:

* a *tree model* (`PTree`): a node is its core data (`type_`, `name_`,
  `value_`) together with the list of its child subtrees.  The virtual
  methods `setValue`, `setChildValue`, `findChild`, `getValueString` and the
  slots `slotChildValueChange` are translated as functions on `PTree`.
  Qt's synchronous signal/slot dispatch is made explicit: every operation
  returns, besides the updated subtree, the ordered list of
  `signalValueChange` emissions (`VEvent`), where a node is identified by
  its path (list of child indices) from the root of the call.  In the C++
  code every `emit signalValueChange(..)` is the final statement of its
  enclosing method, and the only connected slot is the parent's
  `slotChildValueChange`; hence running the parent's slot right after the
  child's call returns (as the loop translations below do) performs exactly
  the same state reads and writes, in the same order, as Qt's reentrant
  in-place dispatch.

* an *arena model* (`Arena`): nodes are numeric identifiers with explicit
  `parent_` / `children_` fields, used for the structural operations
  (`addChild`, `removeChild`, `removeFromParent`, `removeAllChildren`,
  destruction) and their `signalPropertyInserted` / `signalPropertyRemoved`
  emissions.  C++ `assert`s are modelled as hypotheses of the theorems
  (release-build semantics: the operation proceeds).

`QVariant` is modelled as a variant over null, ints, strings, sequences and
string-keyed mappings, with the conversions used by the code
(`toList`, `toMap`, `toString`, `QMap::value`, `QMap::operator[]`).
-/

/-- Model of Qt's dynamically typed `QVariant`: null/invalid, scalar
(restricted to the integers and strings the code's claims exercise),
sequence (`QVariantList`) and string-keyed mapping (`QVariantMap`). -/
inductive QVariant where
  | null : QVariant
  | int : Int → QVariant
  | str : String → QVariant
  | list : List QVariant → QVariant
  | map : List (String × QVariant) → QVariant

mutual

/-- Value equality of `QVariant`s (Qt's `operator==`), decidable. -/
def QVariant.decEq : (a b : QVariant) → Decidable (a = b)
  | .null, .null => isTrue rfl
  | .null, .int _ => isFalse nofun
  | .null, .str _ => isFalse nofun
  | .null, .list _ => isFalse nofun
  | .null, .map _ => isFalse nofun
  | .int _, .null => isFalse nofun
  | .int n, .int m =>
    if h : n = m then isTrue (by rw [h]) else isFalse (by simp [h])
  | .int _, .str _ => isFalse nofun
  | .int _, .list _ => isFalse nofun
  | .int _, .map _ => isFalse nofun
  | .str _, .null => isFalse nofun
  | .str _, .int _ => isFalse nofun
  | .str s, .str t =>
    if h : s = t then isTrue (by rw [h]) else isFalse (by simp [h])
  | .str _, .list _ => isFalse nofun
  | .str _, .map _ => isFalse nofun
  | .list _, .null => isFalse nofun
  | .list _, .int _ => isFalse nofun
  | .list _, .str _ => isFalse nofun
  | .list xs, .list ys =>
    match QVariant.decEqList xs ys with
    | isTrue h => isTrue (by rw [h])
    | isFalse h => isFalse (by simp [h])
  | .list _, .map _ => isFalse nofun
  | .map _, .null => isFalse nofun
  | .map _, .int _ => isFalse nofun
  | .map _, .str _ => isFalse nofun
  | .map _, .list _ => isFalse nofun
  | .map xs, .map ys =>
    match QVariant.decEqPairs xs ys with
    | isTrue h => isTrue (by rw [h])
    | isFalse h => isFalse (by simp [h])

def QVariant.decEqList : (xs ys : List QVariant) → Decidable (xs = ys)
  | [], [] => isTrue rfl
  | [], _ :: _ => isFalse nofun
  | _ :: _, [] => isFalse nofun
  | x :: xs, y :: ys =>
    match QVariant.decEq x y, QVariant.decEqList xs ys with
    | isTrue h1, isTrue h2 => isTrue (by rw [h1, h2])
    | isFalse h1, _ => isFalse (by simp [h1])
    | _, isFalse h2 => isFalse (by simp [h2])

def QVariant.decEqPairs : (xs ys : List (String × QVariant)) → Decidable (xs = ys)
  | [], [] => isTrue rfl
  | [], _ :: _ => isFalse nofun
  | _ :: _, [] => isFalse nofun
  | (s, x) :: xs, (t, y) :: ys =>
    if hs : s = t then
      match QVariant.decEq x y, QVariant.decEqPairs xs ys with
      | isTrue h1, isTrue h2 => isTrue (by rw [hs, h1, h2])
      | isFalse h1, _ => isFalse (by simp [h1])
      | _, isFalse h2 => isFalse (by simp [h2])
    else isFalse (by simp [hs])

end

instance : DecidableEq QVariant := QVariant.decEq

/-- Qt's `QVariant::toList`: the held sequence, or the empty sequence when
the variant does not hold one. -/
def QVariant.toList : QVariant → List QVariant
  | .list xs => xs
  | _ => []

/-- Qt's `QVariant::toMap`: the held mapping, or the empty mapping when the
variant does not hold one. -/
def QVariant.toMap : QVariant → List (String × QVariant)
  | .map m => m
  | _ => []

/-- Qt's `QVariant::toString`: string rendering of scalars, empty string
for null and for container variants. -/
def QVariant.toQString : QVariant → String
  | .null => ""
  | .int n => toString n
  | .str s => s
  | .list _ => ""
  | .map _ => ""

/-- Qt's `QMap::value(key)`: the entry for `key`, or a default-constructed
(null) `QVariant` when the key is absent. -/
def mapValue (m : List (String × QVariant)) (key : String) : QVariant :=
  match m.find? (fun p => p.1 = key) with
  | some p => p.2
  | none => QVariant.null

/-- Qt's `QMap::operator[] =`: replace the entry for `key`, or add one. -/
def mapInsert : List (String × QVariant) → String → QVariant → List (String × QVariant)
  | [], key, v => [(key, v)]
  | p :: rest, key, v =>
    if p.1 = key then (key, v) :: rest else p :: mapInsert rest key v

/-- Lines 163-169, `ensureSize`: pad the sequence with null entries until it
holds at least `size` elements (the C++ `while` loop, as a recursion on the
missing length). -/
def ensureSize (list : List QVariant) (size : Nat) : List QVariant :=
  if list.length < size then ensureSize (list ++ [QVariant.null]) size else list
termination_by size - list.length
decreasing_by
  simp only [List.length_append, List.length_cons, List.length_nil]
  omega

/-- The dynamic class of a node.  `QtProperty` instances are created with a
type tag matching their class (`TYPE_GROUP` for `QtGroupProperty`, etc.),
so a single tag models both the `type_` member and virtual dispatch. -/
inductive PropKind where
  | base | listP | dictP | group
deriving DecidableEq

/-- The per-node data of `QtProperty`: the type tag, `name_` and `value_`
members (the further members `title_`, `attributes_`, `visible_` play no
role in the claims under verification). -/
structure NodeCore where
  type_ : PropKind
  name_ : String
  value_ : QVariant

/-- A property subtree: the node's own data plus its `children_`, in
sequence order.  The `parent_` back-reference is represented by the tree
structure itself (the arena model below makes it explicit). -/
inductive PTree where
  | mk : NodeCore → List PTree → PTree

def PTree.core : PTree → NodeCore
  | .mk c _ => c

def PTree.children_ : PTree → List PTree
  | .mk _ cs => cs

def PTree.getName (t : PTree) : String := t.core.name_

def PTree.getValue (t : PTree) : QVariant := t.core.value_

def PTree.getType (t : PTree) : PropKind := t.core.type_

/-- A node of a tree, identified by the list of child indices leading to it
from the root; `[]` is the root itself. -/
abbrev NodePath := List Nat

/-- Node lookup along a path. -/
def lookupNode (t : PTree) : NodePath → Option PTree
  | [] => some t
  | i :: p =>
    match t.children_.get? i with
    | some c => lookupNode c p
    | none => none

/-- One `signalValueChange` emission.  `emitter` is the path of the node
whose signal fired; `payload` is the path of the node passed as the signal
argument.  They differ only for `QtGroupProperty::slotChildValueChange`,
which re-emits the originating child (line 316). -/
structure VEvent where
  emitter : NodePath
  payload : NodePath
deriving DecidableEq

/-- Re-address an event of child `i` relative to the parent. -/
def liftEvent (i : Nat) (e : VEvent) : VEvent :=
  ⟨i :: e.emitter, i :: e.payload⟩

def liftEvents (i : Nat) (evs : List VEvent) : List VEvent :=
  evs.map (liftEvent i)

/-- Lines 208-224, `QtListProperty::slotChildValueChange`, after
`indexChild` has located the originating child at index `i` (`i >= 0`);
`childValue` is the child's current value.  Returns the updated `value_`
and the node's own emissions.  `valueList.getD i` is the C++ `valueList[i]`;
after `ensureSize` the index is in bounds, so the default is never used. -/
def QtListProperty_slotChildValueChange (value_ : QVariant) (i : Nat)
    (childValue : QVariant) : QVariant × List VEvent :=
  let valueList := ensureSize value_.toList (i + 1)
  if valueList.getD i .null ≠ childValue then
    (QVariant.list (valueList.set i childValue), [⟨[], []⟩])
  else
    (value_, [])

/-- Lines 251-262, `QtDictProperty::slotChildValueChange`; `childName` and
`childValue` are the originating property's current name and value. -/
def QtDictProperty_slotChildValueChange (value_ : QVariant) (childName : String)
    (childValue : QVariant) : QVariant × List VEvent :=
  let valueMap := value_.toMap
  let oldValue := mapValue valueMap childName
  if childValue ≠ oldValue then
    (QVariant.map (mapInsert valueMap childName childValue), [⟨[], []⟩])
  else
    (value_, [])

/-- Dispatch of `slotChildValueChange` on the parent's class, for a signal
emitted by the direct child at index `i` whose updated subtree is `ct`;
`payload` is the signal's argument as a path relative to that child.

* `QtProperty` makes no connection (`onChildAdd` is a no-op, lines
  135-138), so a plain property ignores child signals.
* `QtListProperty` first runs `indexChild(child)` (line 210): the argument
  is a direct child exactly when `payload = []`, and then its index is `i`;
  any other node yields `-1` and the slot does nothing.
* `QtDictProperty` reads the argument's name and value (lines 253-255).
* `QtGroupProperty` re-emits its own signal carrying the argument
  (line 316). -/
def runSlot (kind : PropKind) (value_ : QVariant) (i : Nat) (ct : PTree)
    (payload : NodePath) : QVariant × List VEvent :=
  match kind with
  | .base => (value_, [])
  | .listP =>
    match payload with
    | [] => QtListProperty_slotChildValueChange value_ i ct.getValue
    | _ => (value_, [])
  | .dictP =>
    match lookupNode ct payload with
    | some pn => QtDictProperty_slotChildValueChange value_ pn.getName pn.getValue
    | none => (value_, [])
  | .group => (value_, [⟨[], i :: payload⟩])

/-- Deliver the emissions `evs` of the direct child at index `i` (updated
subtree `ct`) to a parent of class `kind` holding value `value_`: each
emission of the child's own signal (`emitter = []`) triggers the parent's
connected `slotChildValueChange` at that point.  Returns the parent's
updated `value_` and the merged emission sequence (the child's emissions
re-addressed, with the parent's own slot emissions interleaved right after
their trigger, exactly as Qt's synchronous dispatch interleaves them). -/
def processEvents (kind : PropKind) (value_ : QVariant) (i : Nat) (ct : PTree) :
    List VEvent → QVariant × List VEvent
  | [] => (value_, [])
  | e :: rest =>
    let s :=
      if e.emitter = [] then runSlot kind value_ i ct e.payload
      else (value_, [])
    let r := processEvents kind s.1 i ct rest
    (r.1, liftEvent i e :: (s.2 ++ r.2))

mutual

/-- The virtual `setValue`, dispatched on the node's class:

* `.base`: lines 39-46, `QtProperty::setValue` — store and emit iff the new
  value differs.
* `.listP`: lines 177-193, `QtListProperty::setValue` — no-op if equal,
  otherwise store, push the padded sequence entries into the children in
  order (each child's emissions immediately feeding this node's slot), and
  finally emit.
* `.dictP`: lines 233-249, `QtDictProperty::setValue` — no-op if equal,
  otherwise store, push `valueMap.value(child name)` into every child, and
  finally emit.
* `.group`: lines 271-274, `QtGroupProperty::setValue` — always a no-op. -/
def setValue : PTree → QVariant → PTree × List VEvent
  | .mk core cs, value =>
    match core.type_ with
    | .base =>
      if core.value_ ≠ value then
        (.mk { core with value_ := value } cs, [⟨[], []⟩])
      else
        (.mk core cs, [])
    | .listP =>
      if core.value_ = value then
        (.mk core cs, [])
      else
        let valueList := ensureSize value.toList cs.length
        let r := listLoop cs valueList 0 value
        (.mk { core with value_ := r.2.1 } r.1, r.2.2 ++ [⟨[], []⟩])
    | .dictP =>
      if core.value_ = value then
        (.mk core cs, [])
      else
        let r := dictLoop cs value.toMap 0 value
        (.mk { core with value_ := r.2.1 } r.1, r.2.2 ++ [⟨[], []⟩])
    | .group => (.mk core cs, [])

/-- The loop of lines 187-190: `children_[i]->setValue(valueList[i])` in
order.  `vals` is the part of the padded sequence from index `i` on (never
exhausted, since `ensureSize` guarantees `children_.size()` entries);
`value_` is the list node's own value, threaded through its slot. -/
def listLoop : List PTree → List QVariant → Nat → QVariant →
    List PTree × QVariant × List VEvent
  | [], _, _, value_ => ([], value_, [])
  | c :: cs, vals, i, value_ =>
    let r := setValue c (vals.headD .null)
    let p := processEvents .listP value_ i r.1 r.2
    let rest := listLoop cs vals.tail (i + 1) p.1
    (r.1 :: rest.1, rest.2.1, p.2 ++ rest.2.2)

/-- The loop of lines 242-246: every child receives the mapping's entry for
its name (null when absent). -/
def dictLoop : List PTree → List (String × QVariant) → Nat → QVariant →
    List PTree × QVariant × List VEvent
  | [], _, _, value_ => ([], value_, [])
  | c :: cs, valueMap, i, value_ =>
    let r := setValue c (mapValue valueMap c.getName)
    let p := processEvents .dictP value_ i r.1 r.2
    let rest := dictLoop cs valueMap (i + 1) p.1
    (r.1 :: rest.1, rest.2.1, p.2 ++ rest.2.2)

end

mutual

/-- Lines 298-311, `QtGroupProperty::setChildValue`: for every direct
child, recurse when the child is itself a group (virtual dispatch reaches
this same override), otherwise set its value when the name matches.  The
group is a `QtContainerProperty`, so each child's emissions feed the
group's pass-through slot (line 313-317). -/
def QtGroupProperty_setChildValue : PTree → String → QVariant → PTree × List VEvent
  | .mk core cs, name, value =>
    let r := scvLoop cs name value 0 core.value_
    (.mk { core with value_ := r.2.1 } r.1, r.2.2)

/-- The loop of lines 300-310. -/
def scvLoop : List PTree → String → QVariant → Nat → QVariant →
    List PTree × QVariant × List VEvent
  | [], _, _, _, value_ => ([], value_, [])
  | c :: cs, name, value, i, value_ =>
    let r :=
      if c.getType = .group then QtGroupProperty_setChildValue c name value
      else if name = c.getName then setValue c value
      else (c, [])
    let p := processEvents .group value_ i r.1 r.2
    let rest := scvLoop cs name value (i + 1) p.1
    (r.1 :: rest.1, rest.2.1, p.2 ++ rest.2.2)

end

mutual

/-- Lines 276-296, `QtGroupProperty::findChild`: walk the direct children
in order; at each one test the name first, else recurse when the child is
itself a group (`getType() == TYPE_GROUP`, virtual dispatch reaching this
same override); stop at the first node found. -/
def QtGroupProperty_findChild : PTree → String → Option PTree
  | .mk _ cs, name => fcLoop cs name

/-- The loop of lines 279-294, with its break-on-found control flow. -/
def fcLoop : List PTree → String → Option PTree
  | [], _ => none
  | c :: cs, name =>
    let result :=
      if name = c.getName then some c
      else if c.getType = .group then QtGroupProperty_findChild c name
      else none
    match result with
    | some r => some r
    | none => fcLoop cs name

end

mutual

/-- The virtual `getValueString`: `QtListProperty` renders
`"(" + child + ", " + ... + ")"` (lines 195-206); every other class uses
the base `QtProperty::getValueString`, i.e. `value_.toString()`
(lines 48-51; neither `QtDictProperty` nor `QtGroupProperty` overrides
it). -/
def getValueString : PTree → String
  | .mk core cs =>
    match core.type_ with
    | .listP => "(" ++ gvsLoop cs ++ ")"
    | _ => core.value_.toQString

/-- The loop of lines 199-203: append each child's rendering plus `", "`. -/
def gvsLoop : List PTree → String
  | [] => ""
  | c :: cs => (getValueString c ++ ", ") ++ gvsLoop cs

end

mutual

/-- Modelled from the spec (for comparison with `QtGroupProperty_findChild`):
the order in which the group search examines nodes — "children-in-sequence-
order, checking name-equality before recursing into nested groups at each
position".  The code's `findChild` must return the first name match in this
sequence. -/
def specSearchOrder : PTree → List PTree
  | .mk _ cs => ssoList cs

/-- Flattening of the spec's search order over a child sequence. -/
def ssoList : List PTree → List PTree
  | [] => []
  | c :: cs =>
    (c :: (if c.getType = .group then specSearchOrder c else [])) ++ ssoList cs

end

/-- The spec's "unbroken chain of groups": a node reached from `t` either
directly as one of its children, or inside a child that is itself a group.
A node nested inside a non-group container is not reached. -/
inductive GroupReaches : PTree → PTree → Prop where
  | direct {t n} : n ∈ t.children_ → GroupReaches t n
  | nested {t c n} : c ∈ t.children_ → c.getType = .group →
      GroupReaches c n → GroupReaches t n

/-- The structural state of one `QtProperty` object in the arena model:
its `parent_` back-reference and its `children_` id sequence. -/
structure NodeSt where
  parent_ : Option Nat
  children_ : List Nat
deriving DecidableEq

/-- The arena model: every node identifier carries a structural state.
Identifiers never used behave as fresh detached nodes. -/
abbrev Arena := Nat → NodeSt

/-- One structural emission: `signalPropertyInserted(child, parent)` or
`signalPropertyRemoved(property, parent)` (the destructor emits the latter
with a possibly null parent, line 18). -/
inductive SEvent where
  | inserted (child : Nat) (parent : Nat)
  | removed (property : Nat) (parent : Option Nat)
deriving DecidableEq

/-- Replace the state of node `i`. -/
def updateNode (a : Arena) (i : Nat) (s : NodeSt) : Arena :=
  fun j => if j = i then s else a j

/-- Lines 68-76, `QtProperty::addChild`: append to `children_`, set the
child's back-reference, emit the insertion signal.  The
`assert(child->getParent() == NULL)` of line 70 is modelled as the
hypothesis `(a child).parent_ = none` on the theorems about this
operation (in a release build the code proceeds regardless; `onChildAdd`
only wires the signal connection, which the tree model carries
implicitly). -/
def addChild (a : Arena) (this child : Nat) : Arena × List SEvent :=
  let a1 := updateNode a this
    { a this with children_ := (a this).children_ ++ [child] }
  let a2 := updateNode a1 child { a1 child with parent_ := some this }
  (a2, [.inserted child this])

/-- Lines 78-90, `QtProperty::removeChild`: if the child is found in the
sequence, clear its back-reference, erase the first occurrence, emit the
removal signal; otherwise do nothing.  The `assert(child->getParent() ==
this)` of line 80 is modelled as a hypothesis on the theorems about this
operation. -/
def removeChild (a : Arena) (this child : Nat) : Arena × List SEvent :=
  if child ∈ (a this).children_ then
    let a1 := updateNode a child { a child with parent_ := none }
    let a2 := updateNode a1 this
      { a1 this with children_ := (a1 this).children_.erase child }
    (a2, [.removed child (some this)])
  else
    (a, [])

/-- Lines 92-98, `QtProperty::removeFromParent`: delegate to the parent's
`removeChild` when a parent exists. -/
def removeFromParent (a : Arena) (this : Nat) : Arena × List SEvent :=
  match (a this).parent_ with
  | some p => removeChild a p this
  | none => (a, [])

/-- The loop of lines 103-106, iterating over the snapshot `temp`. -/
def racLoop (a : Arena) (this : Nat) : List Nat → Arena × List SEvent
  | [] => (a, [])
  | c :: rest =>
    let r := removeChild a this c
    let r2 := racLoop r.1 this rest
    (r2.1, r.2 ++ r2.2)

/-- Lines 100-107, `QtProperty::removeAllChildren`: copy the child sequence
into `temp`, then remove each element of the snapshot via `removeChild`. -/
def removeAllChildren (a : Arena) (this : Nat) : Arena × List SEvent :=
  let temp := (a this).children_
  racLoop a this temp

/-- Lines 16-22, `QtProperty::~QtProperty`: emit the removal signal with
the current parent while still fully linked, then detach all children,
then detach from the parent.  Deallocation itself is not a structural
step; the node remains in the arena as a detached empty node. -/
def destroy (a : Arena) (this : Nat) : Arena × List SEvent :=
  let e0 := [SEvent.removed this (a this).parent_]
  let r1 := removeAllChildren a this
  let r2 := removeFromParent r1.1 this
  (r2.1, e0 ++ r1.2 ++ r2.2)

/-- The parent/children consistency invariant of the spec: a node's
`parent_` back-reference designates exactly the nodes whose `children_`
sequence contains it, and no child sequence has duplicates. -/
def Consistent (a : Arena) : Prop :=
  (∀ c p, (a c).parent_ = some p ↔ c ∈ (a p).children_) ∧
    (∀ p, ((a p).children_).Nodup)

def sampleBase : NodeCore := ⟨.base, "p", .int 1⟩

def sampleListCore : NodeCore := ⟨.listP, "pt", .null⟩

def sampleLeaf1 : PTree := .mk ⟨.base, "x", .int 1⟩ []

def sampleLeaf2 : PTree := .mk ⟨.base, "y", .int 2⟩ []

/-- A small concrete arena: node 0 is the parent of node 1, all other
identifiers are detached. -/
def sampleArena : Arena := fun n =>
  if n = 0 then ⟨none, [1]⟩ else if n = 1 then ⟨some 0, []⟩ else ⟨none, []⟩

def sampleGroupTree : PTree :=
  .mk ⟨.group, "g", .null⟩
    [.mk ⟨.group, "h", .null⟩ [.mk ⟨.base, "x", .int 7⟩ []],
     .mk ⟨.dictP, "d", .null⟩ [.mk ⟨.base, "y", .int 8⟩ []]]

/-- The healthy-emission property driving the reentrancy analysis: every
emission of a node's own signal during `setValue t v` carries the node
itself, and can only happen once the node's stored value is `v`. -/
def EmitOk (t : PTree) : Prop :=
  ∀ (v : QVariant) (e : VEvent), e ∈ (setValue t v).2 → e.emitter = [] →
    e.payload = [] ∧ (setValue t v).1.getValue = v

/-- The per-child results of the `QtListProperty::setValue` loop: each
child is given the corresponding entry of the padded sequence. -/
def childResults : List PTree → List QVariant → List PTree
  | [], _ => []
  | c :: cs, vals => (setValue c (vals.headD .null)).1 :: childResults cs vals.tail

/-- The emissions of the `QtListProperty::setValue` loop, re-addressed to
the list node: the children's own emissions, in order, and nothing else. -/
def childEvents : List PTree → List QVariant → Nat → List VEvent
  | [], _, _ => []
  | c :: cs, vals, i =>
    liftEvents i (setValue c (vals.headD .null)).2 ++ childEvents cs vals.tail (i + 1)

/-- The per-child results of the `QtDictProperty::setValue` loop: each
child is given the mapping's entry for its name. -/
def dchildResults : List PTree → List (String × QVariant) → List PTree
  | [], _ => []
  | c :: cs, valueMap =>
    (setValue c (mapValue valueMap c.getName)).1 :: dchildResults cs valueMap

/-- The emissions of the `QtDictProperty::setValue` loop. -/
def dchildEvents : List PTree → List (String × QVariant) → Nat → List VEvent
  | [], _, _ => []
  | c :: cs, valueMap, i =>
    liftEvents i (setValue c (mapValue valueMap c.getName)).2 ++
      dchildEvents cs valueMap (i + 1)

def sampleListCore2 : NodeCore := ⟨.listP, "l", .list [.int 1, .int 2]⟩

def sampleNewList : QVariant := .list [.int 9, .int 2]

def sampleDictCore : NodeCore := ⟨.dictP, "d", .null⟩

def sampleLeafA : PTree := .mk ⟨.base, "a", .int 1⟩ []

def sampleLeafB : PTree := .mk ⟨.base, "b", .int 2⟩ []

def sampleNewMap : QVariant := .map [("a", .int 5)]

/-- The spec's "unbroken chain of groups" in positional form: the path
`j :: p` stays valid below the `j`-th child only while every intermediate
node is a group. -/
inductive ChainPath : PTree → NodePath → Prop where
  | here {t : PTree} {c : PTree} {j : Nat} :
      t.children_.get? j = some c → ChainPath t [j]
  | there {t c : PTree} {j : Nat} {p : NodePath} :
      t.children_.get? j = some c → c.getType = .group →
      ChainPath c p → ChainPath t (j :: p)

/-- The per-child results of the `QtGroupProperty::setChildValue` loop. -/
def scvResults : List PTree → String → QVariant → List PTree
  | [], _, _ => []
  | c :: cs, name, value =>
    (if c.getType = .group then (QtGroupProperty_setChildValue c name value).1
     else if name = c.getName then (setValue c value).1
     else c) :: scvResults cs name value

def sampleGroupTree2 : PTree :=
  .mk ⟨.group, "g", .null⟩
    [.mk ⟨.group, "h", .null⟩ [.mk ⟨.base, "x", .int 7⟩ []],
     .mk ⟨.base, "x", .int 9⟩ []]

/-! The development below proves helper lemmas first, then one theorem
(and, where hypotheses are present, one witness) per verified claim. -/

theorem ensureSize_eq_append (l : List QVariant) (n : Nat) :
    ensureSize l n = l ++ List.replicate (n - l.length) QVariant.null := by
  rw [ensureSize]
  split
  · rw [ensureSize_eq_append (l ++ [QVariant.null]) n]
    rw [List.append_assoc]
    congr 1
    have h1 : n - l.length = (n - (l ++ [QVariant.null]).length) + 1 := by
      simp only [List.length_append, List.length_cons, List.length_nil]
      omega
    rw [h1, List.replicate_succ]
    rfl
  · have : n - l.length = 0 := by omega
    rw [this]
    simp
termination_by n - l.length
decreasing_by
  simp only [List.length_append, List.length_cons, List.length_nil]
  omega

theorem ensureSize_length (l : List QVariant) (n : Nat) :
    (ensureSize l n).length = max l.length n := by
  rw [ensureSize_eq_append]
  simp only [List.length_append, List.length_replicate]
  omega

theorem ensureSize_getD (l : List QVariant) (n j : Nat) :
    (ensureSize l n).getD j .null = l.getD j .null := by
  rw [ensureSize_eq_append]
  simp only [List.getD_eq_getElem?_getD]
  by_cases h : j < l.length
  · rw [List.getElem?_append_left h]
  · rw [List.getElem?_append_right (by omega)]
    rw [List.getElem?_eq_none (l := l) (by omega)]
    rw [List.getElem?_replicate]
    split <;> rfl

theorem setValue_base (core : NodeCore) (cs : List PTree) (value : QVariant)
    (h : core.type_ = .base) :
    setValue (.mk core cs) value =
      if core.value_ ≠ value then
        (.mk { core with value_ := value } cs, [⟨[], []⟩])
      else (.mk core cs, []) := by
  rw [setValue, h]

theorem setValue_list (core : NodeCore) (cs : List PTree) (value : QVariant)
    (h : core.type_ = .listP) :
    setValue (.mk core cs) value =
      if core.value_ = value then (.mk core cs, [])
      else
        let r := listLoop cs (ensureSize value.toList cs.length) 0 value
        (.mk { core with value_ := r.2.1 } r.1, r.2.2 ++ [⟨[], []⟩]) := by
  rw [setValue, h]

theorem setValue_dict (core : NodeCore) (cs : List PTree) (value : QVariant)
    (h : core.type_ = .dictP) :
    setValue (.mk core cs) value =
      if core.value_ = value then (.mk core cs, [])
      else
        let r := dictLoop cs value.toMap 0 value
        (.mk { core with value_ := r.2.1 } r.1, r.2.2 ++ [⟨[], []⟩]) := by
  rw [setValue, h]

theorem setValue_group (core : NodeCore) (cs : List PTree) (value : QVariant)
    (h : core.type_ = .group) :
    setValue (.mk core cs) value = (.mk core cs, []) := by
  rw [setValue, h]

/-- C1: on a plain `QtProperty`, `setValue(v)` with `v` equal to the
current value is a no-op with no emission; with a differing `v` it stores
`v` and emits exactly one `signalValueChange` carrying this node (payload
path `[]`); and a second call with the same value never emits again, so two
successive equal-valued calls notify at most once. -/
theorem qtProperty_setValue_spec (core : NodeCore) (cs : List PTree)
    (v : QVariant) (h : core.type_ = .base) :
    (core.value_ = v → setValue (.mk core cs) v = (.mk core cs, [])) ∧
    (core.value_ ≠ v →
      setValue (.mk core cs) v = (.mk { core with value_ := v } cs, [⟨[], []⟩])) ∧
    (setValue (setValue (.mk core cs) v).1 v).2 = [] ∧
    ((setValue (.mk core cs) v).2 ++ (setValue (setValue (.mk core cs) v).1 v).2).length ≤ 1 := by
  by_cases hv : core.value_ = v
  · have h1 : setValue (.mk core cs) v = (.mk core cs, []) := by
      rw [setValue_base core cs v h]
      simp [hv]
    refine ⟨fun _ => h1, fun hne => absurd hv hne, ?_, ?_⟩
    · rw [h1]
      simp only
      rw [setValue_base core cs v h]
      simp [hv]
    · rw [h1]
      simp only
      rw [setValue_base core cs v h]
      simp [hv]
  · have h1 : setValue (.mk core cs) v =
        (.mk { core with value_ := v } cs, [⟨[], []⟩]) := by
      rw [setValue_base core cs v h]
      simp [hv]
    have h2 : setValue (.mk { core with value_ := v } cs) v =
        (.mk { core with value_ := v } cs, []) := by
      rw [setValue_base { core with value_ := v } cs v h]
      simp
    refine ⟨fun he => absurd he hv, fun _ => h1, ?_, ?_⟩
    · rw [h1]
      simp only
      rw [h2]
    · rw [h1]
      simp only
      rw [h2]
      simp

theorem qtProperty_setValue_spec_witness :
    sampleBase.type_ = .base ∧
    ((sampleBase.value_ = .int 2 →
        setValue (.mk sampleBase []) (.int 2) = (.mk sampleBase [], [])) ∧
      (sampleBase.value_ ≠ .int 2 →
        setValue (.mk sampleBase []) (.int 2) =
          (.mk { sampleBase with value_ := .int 2 } [], [⟨[], []⟩])) ∧
      (setValue (setValue (.mk sampleBase []) (.int 2)).1 (.int 2)).2 = [] ∧
      ((setValue (.mk sampleBase []) (.int 2)).2 ++
          (setValue (setValue (.mk sampleBase []) (.int 2)).1 (.int 2)).2).length ≤ 1) :=
  ⟨rfl, qtProperty_setValue_spec sampleBase [] (.int 2) rfl⟩

/-- C4: `QtListProperty::slotChildValueChange` for the child found at index
`i` with current value `cv`: the stored sequence is padded to length at
least `i + 1`; when the padded element at `i` differs from `cv`, exactly
that element is replaced (every other position unchanged), the result is
stored, and one `signalValueChange` is emitted; when it is equal, the value
is untouched and nothing is emitted.  A signal argument that is not a
direct child makes `indexChild` return `-1` and the slot do nothing. -/
theorem qtListProperty_slot_spec (value_ cv : QVariant) (i : Nat) :
    (i + 1 ≤ (ensureSize value_.toList (i + 1)).length) ∧
    ((ensureSize value_.toList (i + 1)).getD i .null ≠ cv →
      QtListProperty_slotChildValueChange value_ i cv =
        (QVariant.list ((ensureSize value_.toList (i + 1)).set i cv), [⟨[], []⟩]) ∧
      ((ensureSize value_.toList (i + 1)).set i cv).getD i .null = cv ∧
      ∀ j, j ≠ i →
        ((ensureSize value_.toList (i + 1)).set i cv).getD j .null =
          (ensureSize value_.toList (i + 1)).getD j .null) ∧
    ((ensureSize value_.toList (i + 1)).getD i .null = cv →
      QtListProperty_slotChildValueChange value_ i cv = (value_, [])) ∧
    (∀ (ct : PTree) (p : NodePath), p ≠ [] →
      runSlot .listP value_ i ct p = (value_, [])) := by
  have hlen : i + 1 ≤ (ensureSize value_.toList (i + 1)).length := by
    rw [ensureSize_length]
    omega
  have hunfold : QtListProperty_slotChildValueChange value_ i cv =
      if (ensureSize value_.toList (i + 1)).getD i .null ≠ cv then
        (QVariant.list ((ensureSize value_.toList (i + 1)).set i cv), [⟨[], []⟩])
      else (value_, []) := rfl
  refine ⟨hlen, ?_, ?_, ?_⟩
  · intro hne
    refine ⟨?_, ?_, ?_⟩
    · rw [hunfold, if_pos hne]
    · simp only [List.getD_eq_getElem?_getD, List.getElem?_set]
      simp only [if_true]
      rw [if_pos (by omega : i < (ensureSize value_.toList (i + 1)).length)]
      rfl
    · intro j hj
      simp only [List.getD_eq_getElem?_getD, List.getElem?_set]
      rw [if_neg (by omega : ¬ i = j)]
  · intro heq
    rw [hunfold, if_neg (fun hc => hc heq)]
  · intro ct p hp
    cases p with
    | nil => exact absurd rfl hp
    | cons a q =>
      rw [runSlot]
      simp

theorem qtListProperty_slot_spec_witness :
    ((ensureSize (QVariant.list [.int 1]).toList (0 + 1)).getD 0 .null ≠ .int 5) ∧
    (QtListProperty_slotChildValueChange (.list [.int 1]) 0 (.int 5) =
        (QVariant.list ((ensureSize (QVariant.list [.int 1]).toList (0 + 1)).set 0 (.int 5)),
          [⟨[], []⟩]) ∧
      ((ensureSize (QVariant.list [.int 1]).toList (0 + 1)).set 0 (.int 5)).getD 0 .null = .int 5 ∧
      ∀ j, j ≠ 0 →
        ((ensureSize (QVariant.list [.int 1]).toList (0 + 1)).set 0 (.int 5)).getD j .null =
          (ensureSize (QVariant.list [.int 1]).toList (0 + 1)).getD j .null) :=
  ⟨by rw [ensureSize]; decide,
    (qtListProperty_slot_spec (.list [.int 1]) (.int 5) 0).2.1
      (by rw [ensureSize]; decide)⟩

theorem string_foldl_append (l : List String) :
    ∀ a : String, l.foldl (· ++ ·) a = a ++ l.foldl (· ++ ·) "" := by
  induction l with
  | nil =>
    intro a
    simp only [List.foldl]
    rw [String.append_empty]
  | cons x xs ih =>
    intro a
    simp only [List.foldl]
    rw [ih (a ++ x), ih ("" ++ x)]
    rw [String.empty_append, String.append_assoc]

theorem string_join_cons (s : String) (l : List String) :
    String.join (s :: l) = s ++ String.join l := by
  simp only [String.join, List.foldl]
  rw [string_foldl_append l ("" ++ s), String.empty_append]

theorem gvsLoop_eq_join (cs : List PTree) :
    gvsLoop cs = String.join (cs.map (fun c => getValueString c ++ ", ")) := by
  induction cs with
  | nil =>
    rw [gvsLoop]
    simp [String.join]
  | cons c cs ih =>
    rw [gvsLoop, List.map_cons, string_join_cons, ih]

/-- C9: `QtListProperty::getValueString` renders `"("`, then every child's
rendering followed by `", "` in sequence order, then `")"`; the trailing
separator is kept, so two children rendering `"1"` and `"2"` give exactly
`"(1, 2, )"`, and no children give `"()"`. -/
theorem qtListProperty_getValueString_spec (core : NodeCore) (cs : List PTree)
    (h : core.type_ = .listP) :
    getValueString (.mk core cs) =
      "(" ++ String.join (cs.map (fun c => getValueString c ++ ", ")) ++ ")" ∧
    (cs = [] → getValueString (.mk core cs) = "()") ∧
    (∀ c1 c2, cs = [c1, c2] → getValueString c1 = "1" → getValueString c2 = "2" →
      getValueString (.mk core cs) = "(1, 2, )") := by
  have hmain : getValueString (.mk core cs) =
      "(" ++ String.join (cs.map (fun c => getValueString c ++ ", ")) ++ ")" := by
    rw [getValueString, h, gvsLoop_eq_join]
  refine ⟨hmain, ?_, ?_⟩
  · intro hnil
    subst hnil
    rw [hmain]
    rfl
  · intro c1 c2 hcs h1 h2
    subst hcs
    rw [hmain]
    simp only [List.map_cons, List.map_nil, h1, h2]
    rw [string_join_cons, string_join_cons]
    rfl

theorem qtListProperty_getValueString_spec_witness :
    sampleListCore.type_ = .listP ∧
    getValueString sampleLeaf1 = "1" ∧
    getValueString sampleLeaf2 = "2" ∧
    getValueString (.mk sampleListCore [sampleLeaf1, sampleLeaf2]) = "(1, 2, )" :=
  ⟨rfl, by simp only [sampleLeaf1, getValueString]; rfl,
    by simp only [sampleLeaf2, getValueString]; rfl,
    (qtListProperty_getValueString_spec sampleListCore [sampleLeaf1, sampleLeaf2] rfl).2.2
      sampleLeaf1 sampleLeaf2 rfl (by simp only [sampleLeaf1, getValueString]; rfl)
      (by simp only [sampleLeaf2, getValueString]; rfl)⟩

theorem addChild_parent_eq (a : Arena) (this child c : Nat) :
    ((addChild a this child).1 c).parent_ =
      if c = child then some this else (a c).parent_ := by
  simp only [addChild, updateNode]
  by_cases hc : c = child <;> by_cases ht : c = this <;> simp_all

theorem addChild_children_eq (a : Arena) (this child p : Nat) :
    ((addChild a this child).1 p).children_ =
      if p = this then (a p).children_ ++ [child] else (a p).children_ := by
  simp only [addChild, updateNode]
  by_cases hp : p = child <;> by_cases ht : p = this <;> simp_all

theorem removeChild_found (a : Arena) (this child : Nat)
    (hmem : child ∈ (a this).children_) :
    removeChild a this child =
      (updateNode (updateNode a child { a child with parent_ := none }) this
        { (updateNode a child { a child with parent_ := none }) this with
            children_ :=
              ((updateNode a child { a child with parent_ := none }) this).children_.erase child },
       [.removed child (some this)]) := by
  rw [removeChild, if_pos hmem]

theorem removeChild_parent_eq (a : Arena) (this child c : Nat)
    (hmem : child ∈ (a this).children_) :
    ((removeChild a this child).1 c).parent_ =
      if c = child then none else (a c).parent_ := by
  rw [removeChild_found a this child hmem]
  simp only [updateNode]
  by_cases hc : c = child <;> by_cases ht : c = this <;>
    by_cases htc : this = child <;> simp_all

theorem removeChild_children_eq (a : Arena) (this child p : Nat)
    (hmem : child ∈ (a this).children_) :
    ((removeChild a this child).1 p).children_ =
      if p = this then (a this).children_.erase child else (a p).children_ := by
  rw [removeChild_found a this child hmem]
  simp only [updateNode]
  by_cases hp : p = child <;> by_cases ht : p = this <;>
    by_cases htc : this = child <;> simp_all

theorem consistent_not_mem_of_parent_none (a : Arena) (hinv : Consistent a)
    (child : Nat) (hpre : (a child).parent_ = none) :
    ∀ p, child ∉ (a p).children_ := by
  intro p hmem
  rw [← hinv.1] at hmem
  rw [hpre] at hmem
  cases hmem

theorem addChild_consistent (a : Arena) (this child : Nat)
    (hinv : Consistent a) (hpre : (a child).parent_ = none) :
    Consistent (addChild a this child).1 := by
  have hnm := consistent_not_mem_of_parent_none a hinv child hpre
  constructor
  · intro c p
    rw [addChild_parent_eq, addChild_children_eq]
    by_cases hc : c = child <;> by_cases hp : p = this
    · rw [if_pos hc, if_pos hp]
      constructor
      · intro _
        rw [hc]
        exact List.mem_append_right _ (List.mem_singleton_self child)
      · intro _
        rw [hp]
    · rw [if_pos hc, if_neg hp]
      constructor
      · intro h
        injection h with h'
        exact absurd h'.symm hp
      · intro h
        rw [hc] at h
        exact absurd h (hnm p)
    · rw [if_neg hc, if_pos hp, List.mem_append, hp]
      constructor
      · intro h
        exact Or.inl ((hinv.1 c this).1 h)
      · rintro (h | h)
        · exact (hinv.1 c this).2 h
        · exact absurd (List.mem_singleton.1 h) hc
    · rw [if_neg hc, if_neg hp]
      exact hinv.1 c p
  · intro p
    rw [addChild_children_eq]
    by_cases hp : p = this
    · rw [if_pos hp, List.nodup_append]
      refine ⟨hinv.2 p, List.nodup_singleton child, ?_⟩
      intro x hx hx2
      rw [List.mem_singleton] at hx2
      subst hx2
      exact hnm p hx
    · rw [if_neg hp]
      exact hinv.2 p

theorem removeChild_consistent (a : Arena) (this child : Nat)
    (hinv : Consistent a) (hpre : (a child).parent_ = some this) :
    Consistent (removeChild a this child).1 := by
  have hmem : child ∈ (a this).children_ := (hinv.1 child this).1 hpre
  constructor
  · intro c p
    rw [removeChild_parent_eq a this child c hmem,
      removeChild_children_eq a this child p hmem]
    by_cases hc : c = child <;> by_cases hp : p = this
    · rw [if_pos hc, if_pos hp]
      constructor
      · intro h
        exact Option.noConfusion h
      · intro h
        rw [hc] at h
        exact absurd h ((hinv.2 this).not_mem_erase)
    · rw [if_pos hc, if_neg hp]
      constructor
      · intro h
        exact Option.noConfusion h
      · intro h
        have h2 := (hinv.1 c p).2 h
        rw [hc, hpre] at h2
        injection h2 with h3
        exact absurd h3.symm hp
    · rw [if_neg hc, if_pos hp, List.mem_erase_of_ne hc, hp]
      exact hinv.1 c this
    · rw [if_neg hc, if_neg hp]
      exact hinv.1 c p
  · intro p
    rw [removeChild_children_eq a this child p hmem]
    by_cases hp : p = this
    · rw [if_pos hp]
      exact (hinv.2 this).erase child
    · rw [if_neg hp]
      exact hinv.2 p

theorem removeChild_not_found (a : Arena) (this child : Nat)
    (hnm : child ∉ (a this).children_) :
    removeChild a this child = (a, []) := by
  rw [removeChild, if_neg hnm]

theorem removeFromParent_consistent (a : Arena) (this : Nat)
    (hinv : Consistent a) : Consistent (removeFromParent a this).1 := by
  rw [removeFromParent]
  cases hpar : (a this).parent_ with
  | none => exact hinv
  | some p => exact removeChild_consistent a p this hinv hpar

theorem removeChild_events (a : Arena) (this child : Nat)
    (hmem : child ∈ (a this).children_) :
    (removeChild a this child).2 = [.removed child (some this)] := by
  rw [removeChild, if_pos hmem]

theorem racLoop_spec : ∀ (l : List Nat) (a : Arena) (this : Nat),
    (a this).children_ = l →
    (racLoop a this l).2 = l.map (fun c => SEvent.removed c (some this)) ∧
    ((racLoop a this l).1 this).children_ = [] ∧
    (∀ q, q ≠ this → ((racLoop a this l).1 q).children_ = (a q).children_) ∧
    (∀ q, q ∉ l → ((racLoop a this l).1 q).parent_ = (a q).parent_) := by
  intro l
  induction l with
  | nil =>
    intro a this h
    rw [racLoop]
    exact ⟨rfl, h, fun q _ => rfl, fun q _ => rfl⟩
  | cons c rest ih =>
    intro a this h
    have hmem : c ∈ (a this).children_ := by
      rw [h]
      exact List.mem_cons_self c rest
    have h2 : ((removeChild a this c).1 this).children_ = rest := by
      rw [removeChild_children_eq a this c this hmem, if_pos rfl, h,
        List.erase_cons_head]
    obtain ⟨e1, e2, e3, e4⟩ := ih (removeChild a this c).1 this h2
    have hloop : racLoop a this (c :: rest) =
        ((racLoop (removeChild a this c).1 this rest).1,
          (removeChild a this c).2 ++
            (racLoop (removeChild a this c).1 this rest).2) := by
      rw [racLoop]
    rw [hloop]
    refine ⟨?_, e2, ?_, ?_⟩
    · rw [removeChild_events a this c hmem, e1, List.map_cons]
      rfl
    · intro q hq
      rw [e3 q hq, removeChild_children_eq a this c q hmem, if_neg hq]
    · intro q hq
      have hqc : q ≠ c := fun he => hq (he ▸ List.mem_cons_self c rest)
      have hqrest : q ∉ rest := fun he => hq (List.mem_cons_of_mem c he)
      rw [e4 q hqrest, removeChild_parent_eq a this c q hmem, if_neg hqc]

theorem racLoop_consistent : ∀ (l : List Nat) (a : Arena) (this : Nat),
    Consistent a → (a this).children_ = l →
    Consistent (racLoop a this l).1 := by
  intro l
  induction l with
  | nil =>
    intro a this hinv _
    rw [racLoop]
    exact hinv
  | cons c rest ih =>
    intro a this hinv h
    have hmem : c ∈ (a this).children_ := by
      rw [h]
      exact List.mem_cons_self c rest
    have hpre : (a c).parent_ = some this := (hinv.1 c this).2 hmem
    have h2 : ((removeChild a this c).1 this).children_ = rest := by
      rw [removeChild_children_eq a this c this hmem, if_pos rfl, h,
        List.erase_cons_head]
    have hloop : racLoop a this (c :: rest) =
        ((racLoop (removeChild a this c).1 this rest).1,
          (removeChild a this c).2 ++
            (racLoop (removeChild a this c).1 this rest).2) := by
      rw [racLoop]
    rw [hloop]
    exact ih (removeChild a this c).1 this
      (removeChild_consistent a this c hinv hpre) h2

theorem removeAllChildren_consistent (a : Arena) (this : Nat)
    (hinv : Consistent a) : Consistent (removeAllChildren a this).1 :=
  racLoop_consistent (a this).children_ a this hinv rfl

theorem destroy_consistent (a : Arena) (this : Nat)
    (hinv : Consistent a) : Consistent (destroy a this).1 :=
  removeFromParent_consistent _ this
    (removeAllChildren_consistent a this hinv)

theorem removeFromParent_some (a : Arena) (this p : Nat)
    (h : (a this).parent_ = some p) :
    removeFromParent a this = removeChild a p this := by
  rw [removeFromParent, h]

theorem removeFromParent_none (a : Arena) (this : Nat)
    (h : (a this).parent_ = none) :
    removeFromParent a this = (a, []) := by
  rw [removeFromParent, h]

/-- C2: the parent/children consistency (a child's back-reference equals a
node exactly when it sits in that node's child sequence, with duplicate-free
sequences) is preserved by `addChild` under its asserted precondition of a
currently parentless child, by `removeChild` under its asserted
precondition that the child's parent is the receiver, and unconditionally
by `removeFromParent`, `removeAllChildren` and destruction; consequently a
node is in at most one parent's child sequence. -/
theorem structural_consistency_spec (a : Arena) (this child1 child2 p1 p2 c : Nat)
    (hinv : Consistent a) :
    ((a child1).parent_ = none → Consistent (addChild a this child1).1) ∧
    ((a child2).parent_ = some this → Consistent (removeChild a this child2).1) ∧
    Consistent (removeFromParent a this).1 ∧
    Consistent (removeAllChildren a this).1 ∧
    Consistent (destroy a this).1 ∧
    (c ∈ (a p1).children_ → c ∈ (a p2).children_ → p1 = p2) := by
  refine ⟨fun h => addChild_consistent a this child1 hinv h,
    fun h => removeChild_consistent a this child2 hinv h,
    removeFromParent_consistent a this hinv,
    removeAllChildren_consistent a this hinv,
    destroy_consistent a this hinv, ?_⟩
  intro h1 h2
  have e1 := (hinv.1 c p1).2 h1
  have e2 := (hinv.1 c p2).2 h2
  rw [e1] at e2
  injection e2

theorem sampleArena_consistent : Consistent sampleArena := by
  constructor
  · intro c p
    by_cases hc0 : c = 0 <;> by_cases hc1 : c = 1 <;>
      by_cases hp0 : p = 0 <;> by_cases hp1 : p = 1 <;> simp_all [sampleArena] <;> omega
  · intro p
    by_cases hp : p = 0 <;> by_cases hp1 : p = 1 <;> simp_all [sampleArena]

theorem structural_consistency_spec_witness :
    Consistent sampleArena ∧
    (sampleArena 2).parent_ = none ∧
    (sampleArena 1).parent_ = some 0 ∧
    (((sampleArena 2).parent_ = none →
        Consistent (addChild sampleArena 0 2).1) ∧
      ((sampleArena 1).parent_ = some 0 →
        Consistent (removeChild sampleArena 0 1).1) ∧
      Consistent (removeFromParent sampleArena 0).1 ∧
      Consistent (removeAllChildren sampleArena 0).1 ∧
      Consistent (destroy sampleArena 0).1 ∧
      (1 ∈ (sampleArena 0).children_ → 1 ∈ (sampleArena 0).children_ → 0 = 0)) :=
  ⟨sampleArena_consistent, rfl, rfl,
    structural_consistency_spec sampleArena 0 2 1 0 0 1 sampleArena_consistent⟩

/-- C8: `removeAllChildren` on a node with `N` children emits exactly the
`N` removal notifications of the snapshot, in order, and leaves the child
sequence empty, despite the sequence shrinking while the snapshot is
iterated. -/
theorem removeAllChildren_spec (a : Arena) (this : Nat) :
    (removeAllChildren a this).2 =
      ((a this).children_).map (fun c => SEvent.removed c (some this)) ∧
    (removeAllChildren a this).2.length = (a this).children_.length ∧
    ((removeAllChildren a this).1 this).children_ = [] := by
  obtain ⟨e1, e2, _, _⟩ := racLoop_spec (a this).children_ a this rfl
  refine ⟨e1, ?_, e2⟩
  show (racLoop a this (a this).children_).2.length = (a this).children_.length
  rw [e1, List.length_map]

/-- C10: destroying a node that still has a parent `p` (a node other than
itself) emits the `(node, p)` removal notification twice — once directly
from the destructor while the node is still linked, and once more from
`p`'s `removeChild` when `removeFromParent` unlinks it at the end —
besides the one removal notification per child; destroying a parentless
node emits exactly one removal notification carrying it, with a null
parent. -/
theorem destructor_spec (a : Arena) (this : Nat) (hinv : Consistent a) :
    (∀ p, (a this).parent_ = some p → p ≠ this →
      (destroy a this).2 =
        .removed this (some p) ::
          (((a this).children_).map (fun c => SEvent.removed c (some this)) ++
            [.removed this (some p)]) ∧
      (destroy a this).2.count (.removed this (some p)) = 2) ∧
    ((a this).parent_ = none →
      (destroy a this).2 =
        .removed this none ::
          ((a this).children_).map (fun c => SEvent.removed c (some this)) ∧
      (destroy a this).2.filter
        (fun e => match e with
          | .removed x _ => x == this
          | _ => false) = [.removed this none]) := by
  obtain ⟨e1, e2, e3, e4⟩ := racLoop_spec (a this).children_ a this rfl
  have hd : (destroy a this).2 =
      ([SEvent.removed this (a this).parent_] ++
          (racLoop a this (a this).children_).2) ++
        (removeFromParent (racLoop a this (a this).children_).1 this).2 := rfl
  constructor
  · intro p hp hne
    have hni : this ∉ (a this).children_ := by
      intro hmem
      have h2 := (hinv.1 this this).2 hmem
      rw [hp] at h2
      injection h2 with h3
      exact hne h3
    have hpar1 : ((racLoop a this (a this).children_).1 this).parent_ = some p := by
      rw [e4 this hni, hp]
    have hmem1 : this ∈ ((racLoop a this (a this).children_).1 p).children_ := by
      rw [e3 p hne]
      exact (hinv.1 this p).1 hp
    have hevents : (destroy a this).2 =
        .removed this (some p) ::
          (((a this).children_).map (fun c => SEvent.removed c (some this)) ++
            [.removed this (some p)]) := by
      rw [hd, e1, hp,
        removeFromParent_some (racLoop a this (a this).children_).1 this p hpar1,
        removeChild_events (racLoop a this (a this).children_).1 p this hmem1]
      simp
    refine ⟨hevents, ?_⟩
    have hcount0 : (((a this).children_).map
        (fun c => SEvent.removed c (some this))).count
          (SEvent.removed this (some p)) = 0 := by
      rw [List.count_eq_zero]
      intro hmem
      rw [List.mem_map] at hmem
      obtain ⟨c, hc, heq⟩ := hmem
      injection heq with h1 h2
      exact hni (h1 ▸ hc)
    rw [hevents, List.count_cons, List.count_append, hcount0,
      List.count_singleton]
    simp
  · intro hp
    have hni : this ∉ (a this).children_ := by
      intro hmem
      have h2 := (hinv.1 this this).2 hmem
      rw [hp] at h2
      exact Option.noConfusion h2
    have hpar1 : ((racLoop a this (a this).children_).1 this).parent_ = none := by
      rw [e4 this hni, hp]
    have hevents : (destroy a this).2 =
        .removed this none ::
          ((a this).children_).map (fun c => SEvent.removed c (some this)) := by
      rw [hd, e1, hp,
        removeFromParent_none (racLoop a this (a this).children_).1 this hpar1]
      simp
    refine ⟨hevents, ?_⟩
    rw [hevents, List.filter_cons]
    have hfil : (((a this).children_).map
        (fun c => SEvent.removed c (some this))).filter
          (fun e => match e with
            | SEvent.removed x _ => x == this
            | _ => false) = [] := by
      rw [List.filter_eq_nil_iff]
      intro e hmem
      rw [List.mem_map] at hmem
      obtain ⟨c, hc, heq⟩ := hmem
      subst heq
      simp only [beq_iff_eq]
      intro h
      exact hni (h ▸ hc)
    rw [hfil]
    simp

theorem destructor_spec_witness :
    Consistent sampleArena ∧
    (sampleArena 1).parent_ = some 0 ∧ (0 : Nat) ≠ 1 ∧
    ((destroy sampleArena 1).2 =
        .removed 1 (some 0) ::
          (((sampleArena 1).children_).map (fun c => SEvent.removed c (some 1)) ++
            [.removed 1 (some 0)]) ∧
      (destroy sampleArena 1).2.count (.removed 1 (some 0)) = 2) :=
  ⟨sampleArena_consistent, rfl, by decide,
    (destructor_spec sampleArena 1 sampleArena_consistent).1 0 rfl (by decide)⟩

/-- Structural induction over property trees with the hypothesis available
for every child. -/
theorem PTree.inductionOn {P : PTree → Prop}
    (h : ∀ core cs, (∀ c ∈ cs, P c) → P (.mk core cs)) : ∀ t, P t
  | .mk core cs => h core cs (fun c hc => PTree.inductionOn h c)
termination_by t => sizeOf t
decreasing_by
  have := List.sizeOf_lt_of_mem hc
  simp only [PTree.mk.sizeOf_spec]
  omega

theorem fcLoop_eq_sso (name : String) (cs : List PTree)
    (ih : ∀ c ∈ cs, QtGroupProperty_findChild c name =
      (specSearchOrder c).find? (fun n => name == n.getName)) :
    fcLoop cs name = (ssoList cs).find? (fun n => name == n.getName) := by
  induction cs with
  | nil =>
    rw [fcLoop, ssoList]
    rfl
  | cons c cs ihl =>
    have hrest : fcLoop cs name = (ssoList cs).find? (fun n => name == n.getName) :=
      ihl (fun d hd => ih d (List.mem_cons_of_mem c hd))
    have hc := ih c (List.mem_cons_self c cs)
    rw [fcLoop, ssoList, List.cons_append, List.find?_cons]
    by_cases hn : name = c.getName
    · have hb : (name == c.getName) = true := beq_iff_eq.2 hn
      rw [if_pos hn, hb]
    · have hb : (name == c.getName) = false := by
        rw [beq_eq_false_iff_ne]
        exact hn
      rw [if_neg hn, hb]
      by_cases hg : c.getType = .group
      · rw [if_pos hg, if_pos hg, hc, List.find?_append, hrest]
        cases (specSearchOrder c).find? (fun n => name == n.getName) <;>
          simp [Option.or]
      · rw [if_neg hg, if_neg hg]
        rw [List.nil_append, hrest]

theorem findChild_eq_sso : ∀ (t : PTree) (name : String),
    QtGroupProperty_findChild t name =
      (specSearchOrder t).find? (fun n => name == n.getName) := by
  intro t
  induction t using PTree.inductionOn with
  | _ core cs ih =>
    intro name
    rw [QtGroupProperty_findChild, specSearchOrder]
    exact fcLoop_eq_sso name cs (fun c hc => ih c hc name)

theorem groupReaches_cons (core : NodeCore) (c : PTree) (cs : List PTree)
    (n : PTree) (h : GroupReaches (.mk core cs) n) :
    GroupReaches (.mk core (c :: cs)) n := by
  cases h with
  | direct hm =>
    exact GroupReaches.direct (List.mem_cons_of_mem c hm)
  | nested hm hg hr =>
    exact GroupReaches.nested (List.mem_cons_of_mem c hm) hg hr

theorem mem_ssoList_iff (core : NodeCore) :
    ∀ (cs : List PTree),
    (∀ c ∈ cs, ∀ n, n ∈ specSearchOrder c ↔ GroupReaches c n) →
    ∀ n, n ∈ ssoList cs ↔ GroupReaches (.mk core cs) n := by
  intro cs
  induction cs with
  | nil =>
    intro _ n
    rw [ssoList]
    constructor
    · intro h
      cases h
    · intro h
      cases h with
      | direct hm => cases hm
      | nested hm _ _ => cases hm
  | cons c cs ihl =>
    intro ih n
    have hlist := ihl (fun d hd => ih d (List.mem_cons_of_mem c hd))
    have hc := ih c (List.mem_cons_self c cs)
    rw [ssoList, List.cons_append, List.mem_cons, List.mem_append]
    constructor
    · rintro (h | h | h)
      · subst h
        exact GroupReaches.direct (List.mem_cons_self n cs)
      · rw [List.mem_ite_nil_right] at h
        exact GroupReaches.nested (List.mem_cons_self c cs) h.1 ((hc n).1 h.2)
      · exact groupReaches_cons core c cs n ((hlist n).1 h)
    · intro h
      cases h with
      | direct hm =>
        rw [PTree.children_, List.mem_cons] at hm
        cases hm with
        | inl he => exact Or.inl he
        | inr hm =>
          exact Or.inr (Or.inr ((hlist n).2 (GroupReaches.direct hm)))
      | nested hm hg hr =>
        rename_i d
        rw [PTree.children_, List.mem_cons] at hm
        cases hm with
        | inl he =>
          subst he
          refine Or.inr (Or.inl ?_)
          rw [List.mem_ite_nil_right]
          exact ⟨hg, (hc n).2 hr⟩
        | inr hm =>
          exact Or.inr (Or.inr ((hlist n).2 (GroupReaches.nested hm hg hr)))

theorem mem_sso_iff : ∀ (t : PTree) (n : PTree),
    n ∈ specSearchOrder t ↔ GroupReaches t n := by
  intro t
  induction t using PTree.inductionOn with
  | _ core cs ih =>
    intro n
    rw [specSearchOrder]
    exact mem_ssoList_iff core cs (fun c hc => ih c hc) n

/-- C6: `QtGroupProperty::findChild(name)` performs exactly the spec's
search — first match over children-in-sequence-order, testing the name
before recursing, recursing only into children that are themselves groups;
hence it finds a node when and only when some node named `name` is
reachable through an unbroken chain of groups (at any depth), and whatever
it returns bears the requested name and is so reachable. -/
theorem qtGroupProperty_findChild_spec (t : PTree) (name : String) :
    QtGroupProperty_findChild t name =
      (specSearchOrder t).find? (fun n => name == n.getName) ∧
    ((QtGroupProperty_findChild t name).isSome ↔
      ∃ n, GroupReaches t n ∧ n.getName = name) ∧
    (∀ n, QtGroupProperty_findChild t name = some n →
      n.getName = name ∧ GroupReaches t n) := by
  have hmain := findChild_eq_sso t name
  refine ⟨hmain, ?_, ?_⟩
  · rw [hmain]
    rw [List.find?_isSome]
    constructor
    · rintro ⟨x, hx, hp⟩
      exact ⟨x, (mem_sso_iff t x).1 hx, (beq_iff_eq.1 hp).symm⟩
    · rintro ⟨x, hx, hp⟩
      exact ⟨x, (mem_sso_iff t x).2 hx, beq_iff_eq.2 hp.symm⟩
  · intro n hfind
    rw [hmain] at hfind
    have h2 := List.find?_some hfind
    simp only [beq_iff_eq] at h2
    refine ⟨h2.symm, ?_⟩
    exact (mem_sso_iff t n).1 (List.mem_of_find?_eq_some hfind)

theorem qtGroupProperty_findChild_spec_witness :
    QtGroupProperty_findChild sampleGroupTree "x" =
        some (.mk ⟨.base, "x", .int 7⟩ []) ∧
    QtGroupProperty_findChild sampleGroupTree "y" = none ∧
    (QtGroupProperty_findChild sampleGroupTree "x" =
      (specSearchOrder sampleGroupTree).find? (fun n => "x" == n.getName)) :=
  ⟨by simp [sampleGroupTree, QtGroupProperty_findChild, fcLoop,
      PTree.getName, PTree.getType, PTree.core],
    by simp [sampleGroupTree, QtGroupProperty_findChild, fcLoop,
      PTree.getName, PTree.getType, PTree.core],
    (qtGroupProperty_findChild_spec sampleGroupTree "x").1⟩

theorem headD_eq_getD_zero {α : Type} (l : List α) (d : α) :
    l.headD d = l.getD 0 d := by
  cases l <;> rfl

theorem tail_getD {α : Type} (l : List α) (k : Nat) (d : α) :
    l.tail.getD k d = l.getD (k + 1) d := by
  cases l <;> rfl

/-- `setValue` never changes the node's own name or class. -/
theorem setValue_core_stable (t : PTree) (v : QVariant) :
    (setValue t v).1.getName = t.getName ∧
      (setValue t v).1.getType = t.getType := by
  obtain ⟨core, cs⟩ := t
  cases hk : core.type_
  · rw [setValue_base core cs v hk]
    split_ifs <;> exact ⟨rfl, by simp [PTree.getType, PTree.core, hk]⟩
  · rw [setValue_list core cs v hk]
    split_ifs <;> exact ⟨rfl, by simp [PTree.getType, PTree.core, hk]⟩
  · rw [setValue_dict core cs v hk]
    split_ifs <;> exact ⟨rfl, by simp [PTree.getType, PTree.core, hk]⟩
  · rw [setValue_group core cs v hk]
    exact ⟨rfl, rfl⟩

/-- `setValue` with the node's current value is a complete no-op for every
class of node. -/
theorem setValue_self (t : PTree) (v : QVariant) (h : t.getValue = v) :
    setValue t v = (t, []) := by
  obtain ⟨core, cs⟩ := t
  have hv : core.value_ = v := h
  cases hk : core.type_
  · rw [setValue_base core cs v hk, if_neg (by simp [hv])]
  · rw [setValue_list core cs v hk, if_pos hv]
  · rw [setValue_dict core cs v hk, if_pos hv]
  · rw [setValue_group core cs v hk]

/-- When every emission of the child's own signal makes the parent's slot
a no-op, delivering the child's emissions leaves the parent's value alone
and merely re-addresses them. -/
theorem processEvents_noop (kind : PropKind) (w : QVariant) (i : Nat)
    (ct : PTree) :
    ∀ evs : List VEvent,
    (∀ e ∈ evs, e.emitter = [] → runSlot kind w i ct e.payload = (w, [])) →
    processEvents kind w i ct evs = (w, liftEvents i evs) := by
  intro evs
  induction evs with
  | nil =>
    intro _
    rw [processEvents, liftEvents]
    rfl
  | cons e rest ih =>
    intro hok
    have hstep : (if e.emitter = [] then runSlot kind w i ct e.payload
        else (w, [])) = (w, []) := by
      split_ifs with he
      · exact hok e (List.mem_cons_self e rest) he
      · rfl
    have hrest := ih (fun d hd => hok d (List.mem_cons_of_mem e hd))
    rw [processEvents, hstep, hrest]
    simp [liftEvents]

theorem childEvents_head : ∀ (cs : List PTree) (vals : List QVariant)
    (i : Nat) (e : VEvent), e ∈ childEvents cs vals i →
    ∃ k, i ≤ k ∧ e.emitter.head? = some k := by
  intro cs
  induction cs with
  | nil =>
    intro vals i e he
    rw [childEvents] at he
    cases he
  | cons c cs ih =>
    intro vals i e he
    rw [childEvents, List.mem_append] at he
    cases he with
    | inl he =>
      rw [liftEvents, List.mem_map] at he
      obtain ⟨e0, _, heq⟩ := he
      subst heq
      exact ⟨i, le_refl i, rfl⟩
    | inr he =>
      obtain ⟨k, hk, hh⟩ := ih vals.tail (i + 1) e he
      exact ⟨k, by omega, hh⟩

theorem dchildEvents_head : ∀ (cs : List PTree)
    (valueMap : List (String × QVariant)) (i : Nat) (e : VEvent),
    e ∈ dchildEvents cs valueMap i →
    ∃ k, i ≤ k ∧ e.emitter.head? = some k := by
  intro cs
  induction cs with
  | nil =>
    intro valueMap i e he
    rw [dchildEvents] at he
    cases he
  | cons c cs ih =>
    intro valueMap i e he
    rw [dchildEvents, List.mem_append] at he
    cases he with
    | inl he =>
      rw [liftEvents, List.mem_map] at he
      obtain ⟨e0, _, heq⟩ := he
      subst heq
      exact ⟨i, le_refl i, rfl⟩
    | inr he =>
      obtain ⟨k, hk, hh⟩ := ih valueMap (i + 1) e he
      exact ⟨k, by omega, hh⟩

theorem listLoop_run : ∀ (cs : List PTree) (w : QVariant)
    (vals : List QVariant) (i : Nat),
    (∀ c ∈ cs, EmitOk c) →
    (∀ k, vals.getD k .null = w.toList.getD (i + k) .null) →
    cs.length ≤ vals.length →
    listLoop cs vals i w = (childResults cs vals, w, childEvents cs vals i) := by
  intro cs
  induction cs with
  | nil =>
    intro w vals i _ _ _
    rw [listLoop, childResults, childEvents]
  | cons c cs ih =>
    intro w vals i hok hvals hlen
    have hv0 : vals.headD .null = w.toList.getD i .null := by
      rw [headD_eq_getD_zero, hvals 0, Nat.add_zero]
    have hslot : ∀ e ∈ (setValue c (vals.headD .null)).2, e.emitter = [] →
        runSlot .listP w i (setValue c (vals.headD .null)).1 e.payload = (w, []) := by
      intro e he hemit
      obtain ⟨hpay, hval⟩ :=
        hok c (List.mem_cons_self c cs) (vals.headD .null) e he hemit
      rw [hpay, runSlot, hval]
      have hcomp : (ensureSize w.toList (i + 1)).getD i .null = vals.headD .null := by
        rw [ensureSize_getD, hv0]
      have hunfold : QtListProperty_slotChildValueChange w i (vals.headD .null) =
          if (ensureSize w.toList (i + 1)).getD i .null ≠ vals.headD .null then
            (QVariant.list ((ensureSize w.toList (i + 1)).set i (vals.headD .null)),
              [⟨[], []⟩])
          else (w, []) := rfl
      rw [hunfold, if_neg (fun hne => hne hcomp)]
    have hproc := processEvents_noop .listP w i (setValue c (vals.headD .null)).1
      (setValue c (vals.headD .null)).2 hslot
    have hvals2 : ∀ k, vals.tail.getD k .null = w.toList.getD (i + 1 + k) .null := by
      intro k
      rw [tail_getD, hvals (k + 1)]
      have : i + (k + 1) = i + 1 + k := by omega
      rw [this]
    have hlen2 : cs.length ≤ vals.tail.length := by
      rw [List.length_tail]
      have := List.length_cons c cs
      omega
    have hrest := ih w vals.tail (i + 1)
      (fun d hd => hok d (List.mem_cons_of_mem c hd)) hvals2 hlen2
    rw [listLoop, childResults, childEvents]
    rw [hproc, hrest]

theorem dictLoop_run : ∀ (cs : List PTree) (w : QVariant)
    (valueMap : List (String × QVariant)) (i : Nat),
    (∀ c ∈ cs, EmitOk c) → valueMap = w.toMap →
    dictLoop cs valueMap i w =
      (dchildResults cs valueMap, w, dchildEvents cs valueMap i) := by
  intro cs
  induction cs with
  | nil =>
    intro w valueMap i _ _
    rw [dictLoop, dchildResults, dchildEvents]
  | cons c cs ih =>
    intro w valueMap i hok hmap
    have hslot : ∀ e ∈ (setValue c (mapValue valueMap c.getName)).2,
        e.emitter = [] →
        runSlot .dictP w i (setValue c (mapValue valueMap c.getName)).1
          e.payload = (w, []) := by
      intro e he hemit
      obtain ⟨hpay, hval⟩ := hok c (List.mem_cons_self c cs)
        (mapValue valueMap c.getName) e he hemit
      rw [hpay, runSlot, lookupNode]
      show QtDictProperty_slotChildValueChange w
          (setValue c (mapValue valueMap c.getName)).1.getName
          (setValue c (mapValue valueMap c.getName)).1.getValue = (w, [])
      have hname := (setValue_core_stable c (mapValue valueMap c.getName)).1
      have hunfold : QtDictProperty_slotChildValueChange w
          (setValue c (mapValue valueMap c.getName)).1.getName
          (setValue c (mapValue valueMap c.getName)).1.getValue =
          if (setValue c (mapValue valueMap c.getName)).1.getValue ≠
              mapValue w.toMap
                (setValue c (mapValue valueMap c.getName)).1.getName then
            (QVariant.map (mapInsert w.toMap
                (setValue c (mapValue valueMap c.getName)).1.getName
                (setValue c (mapValue valueMap c.getName)).1.getValue),
              [⟨[], []⟩])
          else (w, []) := rfl
      rw [hunfold,
        if_neg (fun hne => hne (by rw [hval, hname, hmap]))]
    have hproc := processEvents_noop .dictP w i
      (setValue c (mapValue valueMap c.getName)).1
      (setValue c (mapValue valueMap c.getName)).2 hslot
    have hrest := ih w valueMap (i + 1)
      (fun d hd => hok d (List.mem_cons_of_mem c hd)) hmap
    rw [dictLoop, dchildResults, dchildEvents]
    rw [hproc, hrest]

theorem emitOk_all : ∀ t, EmitOk t := by
  intro t
  induction t using PTree.inductionOn with
  | _ core cs ih =>
    intro v e he hemit
    cases hk : core.type_
    case base =>
      rw [setValue_base core cs v hk] at he ⊢
      split_ifs at he ⊢ with hne
      · rw [List.mem_singleton] at he
        subst he
        exact ⟨rfl, rfl⟩
      · cases he
    case listP =>
      have hvals0 : ∀ k, (ensureSize v.toList cs.length).getD k .null =
          v.toList.getD (0 + k) .null := by
        intro k
        rw [ensureSize_getD, Nat.zero_add]
      have hlen0 : cs.length ≤ (ensureSize v.toList cs.length).length := by
        rw [ensureSize_length]
        omega
      have hrun := listLoop_run cs v (ensureSize v.toList cs.length) 0
        (fun c hc => ih c hc) hvals0 hlen0
      rw [setValue_list core cs v hk] at he ⊢
      split_ifs at he ⊢ with heq
      · cases he
      · rw [hrun] at he ⊢
        simp only [List.mem_append] at he
        cases he with
        | inl he =>
          obtain ⟨k, _, hh⟩ := childEvents_head cs
            (ensureSize v.toList cs.length) 0 e he
          rw [hemit] at hh
          cases hh
        | inr he =>
          rw [List.mem_singleton] at he
          subst he
          exact ⟨rfl, rfl⟩
    case dictP =>
      have hrun := dictLoop_run cs v v.toMap 0 (fun c hc => ih c hc) rfl
      rw [setValue_dict core cs v hk] at he ⊢
      split_ifs at he ⊢ with heq
      · cases he
      · rw [hrun] at he ⊢
        simp only [List.mem_append] at he
        cases he with
        | inl he =>
          obtain ⟨k, _, hh⟩ := dchildEvents_head cs v.toMap 0 e he
          rw [hemit] at hh
          cases hh
        | inr he =>
          rw [List.mem_singleton] at he
          subst he
          exact ⟨rfl, rfl⟩
    case group =>
      rw [setValue_group core cs v hk] at he
      cases he

theorem childResults_get : ∀ (cs : List PTree) (vals : List QVariant) (i : Nat),
    (childResults cs vals).get? i =
      (cs.get? i).map (fun c => (setValue c (vals.getD i .null)).1) := by
  intro cs
  induction cs with
  | nil =>
    intro vals i
    rw [childResults]
    rfl
  | cons c cs ih =>
    intro vals i
    cases i with
    | zero =>
      rw [childResults]
      simp only [List.get?]
      rw [headD_eq_getD_zero]
      rfl
    | succ i =>
      rw [childResults]
      simp only [List.get?]
      rw [ih vals.tail i]
      simp only [tail_getD]

theorem childEvents_no_index : ∀ (cs : List PTree) (vals : List QVariant)
    (i0 j : Nat) (hj : j < cs.length),
    (setValue (cs.get ⟨j, hj⟩) (vals.getD j .null)).2 = [] →
    ∀ e ∈ childEvents cs vals i0, e.emitter.head? ≠ some (i0 + j) := by
  intro cs
  induction cs with
  | nil =>
    intro vals i0 j hj
    exact absurd hj (by simp)
  | cons c cs ih =>
    intro vals i0 j hj hz e he
    rw [childEvents, List.mem_append] at he
    cases j with
    | zero =>
      have hz0 : (setValue c (vals.headD .null)).2 = [] := by
        rw [headD_eq_getD_zero]
        exact hz
      cases he with
      | inl he =>
        rw [hz0] at he
        cases he
      | inr he =>
        obtain ⟨k, hk, hh⟩ := childEvents_head cs vals.tail (i0 + 1) e he
        rw [hh]
        intro hcon
        injection hcon with hcon
        omega
    | succ j =>
      cases he with
      | inl he =>
        rw [liftEvents, List.mem_map] at he
        obtain ⟨e0, _, heq⟩ := he
        subst heq
        intro hcon
        injection hcon with hcon
        omega
      | inr he =>
        have hj2 : j < cs.length := by
          have := List.length_cons c cs
          omega
        have hz2 : (setValue (cs.get ⟨j, hj2⟩) (vals.tail.getD j .null)).2 = [] := by
          rw [tail_getD]
          exact hz
        have := ih vals.tail (i0 + 1) j hj2 hz2 e he
        intro hcon
        apply this
        rw [hcon]
        congr 1
        omega

/-- C3: `QtListProperty::setValue(v)` with `v` equal to the current value
is a complete no-op.  Otherwise it stores `v`, pushes entry `i` of the
null-padded sequence into child `i`'s `setValue` for every `i`, and the
whole call emits exactly one signal of the list node itself (the final
one): the children's own emissions feed the list's slot reentrantly, but
that slot always finds the freshly stored element equal to the child's new
value and never adds a notification.  A child whose value already equals
its entry is left untouched and nothing is emitted anywhere in its
subtree. -/
theorem qtListProperty_setValue_spec (core : NodeCore) (cs : List PTree)
    (v : QVariant) (h : core.type_ = .listP) :
    (core.value_ = v → setValue (.mk core cs) v = (.mk core cs, [])) ∧
    (core.value_ ≠ v →
      setValue (.mk core cs) v =
        (.mk { core with value_ := v }
            (childResults cs (ensureSize v.toList cs.length)),
          childEvents cs (ensureSize v.toList cs.length) 0 ++ [⟨[], []⟩]) ∧
      (setValue (.mk core cs) v).2.filter (fun e => e.emitter == []) =
        [⟨[], []⟩] ∧
      (∀ i (hi : i < cs.length),
        (childResults cs (ensureSize v.toList cs.length)).get? i =
          some (setValue (cs.get ⟨i, hi⟩)
            ((ensureSize v.toList cs.length).getD i .null)).1) ∧
      (∀ i (hi : i < cs.length),
        (cs.get ⟨i, hi⟩).getValue =
            (ensureSize v.toList cs.length).getD i .null →
        (childResults cs (ensureSize v.toList cs.length)).get? i =
            some (cs.get ⟨i, hi⟩) ∧
          ∀ e ∈ (setValue (.mk core cs) v).2, e.emitter.head? ≠ some i)) := by
  constructor
  · intro heq
    exact setValue_self (.mk core cs) v heq
  · intro hne
    have hvals0 : ∀ k, (ensureSize v.toList cs.length).getD k .null =
        v.toList.getD (0 + k) .null := by
      intro k
      rw [ensureSize_getD, Nat.zero_add]
    have hlen0 : cs.length ≤ (ensureSize v.toList cs.length).length := by
      rw [ensureSize_length]
      omega
    have hrun := listLoop_run cs v (ensureSize v.toList cs.length) 0
      (fun c _ => emitOk_all c) hvals0 hlen0
    have hmain : setValue (.mk core cs) v =
        (.mk { core with value_ := v }
            (childResults cs (ensureSize v.toList cs.length)),
          childEvents cs (ensureSize v.toList cs.length) 0 ++ [⟨[], []⟩]) := by
      rw [setValue_list core cs v h, if_neg hne, hrun]
    refine ⟨hmain, ?_, ?_, ?_⟩
    · rw [hmain]
      simp only [List.filter_append]
      have h1 : (childEvents cs (ensureSize v.toList cs.length) 0).filter
          (fun e => e.emitter == []) = [] := by
        rw [List.filter_eq_nil_iff]
        intro e he
        obtain ⟨k, _, hh⟩ := childEvents_head cs
          (ensureSize v.toList cs.length) 0 e he
        simp only [beq_iff_eq]
        intro hcon
        rw [hcon] at hh
        cases hh
      rw [h1]
      rfl
    · intro i hi
      rw [childResults_get cs (ensureSize v.toList cs.length) i,
        List.get?_eq_get hi]
      rfl
    · intro i hi hval
      have hz : setValue (cs.get ⟨i, hi⟩)
          ((ensureSize v.toList cs.length).getD i .null) =
          (cs.get ⟨i, hi⟩, []) :=
        setValue_self _ _ hval
      constructor
      · rw [childResults_get cs (ensureSize v.toList cs.length) i,
          List.get?_eq_get hi]
        show some (setValue (cs.get ⟨i, hi⟩)
          ((ensureSize v.toList cs.length).getD i .null)).1 = some (cs.get ⟨i, hi⟩)
        rw [hz]
      · intro e he
        rw [hmain] at he
        simp only [List.mem_append] at he
        cases he with
        | inl he =>
          have := childEvents_no_index cs (ensureSize v.toList cs.length) 0 i hi
            (by rw [hz]) e he
          rw [Nat.zero_add] at this
          exact this
        | inr he =>
          rw [List.mem_singleton] at he
          subst he
          intro hcon
          cases hcon

theorem qtListProperty_setValue_spec_witness :
    sampleListCore2.type_ = .listP ∧
    sampleListCore2.value_ ≠ sampleNewList ∧
    (setValue (.mk sampleListCore2 [sampleLeaf1, sampleLeaf2]) sampleNewList =
        (.mk { sampleListCore2 with value_ := sampleNewList }
            (childResults [sampleLeaf1, sampleLeaf2]
              (ensureSize sampleNewList.toList [sampleLeaf1, sampleLeaf2].length)),
          childEvents [sampleLeaf1, sampleLeaf2]
            (ensureSize sampleNewList.toList [sampleLeaf1, sampleLeaf2].length) 0 ++
            [⟨[], []⟩]) ∧
      (setValue (.mk sampleListCore2 [sampleLeaf1, sampleLeaf2])
          sampleNewList).2.filter (fun e => e.emitter == []) = [⟨[], []⟩] ∧
      (∀ i (hi : i < [sampleLeaf1, sampleLeaf2].length),
        (childResults [sampleLeaf1, sampleLeaf2]
            (ensureSize sampleNewList.toList [sampleLeaf1, sampleLeaf2].length)).get? i =
          some (setValue ([sampleLeaf1, sampleLeaf2].get ⟨i, hi⟩)
            ((ensureSize sampleNewList.toList
              [sampleLeaf1, sampleLeaf2].length).getD i .null)).1) ∧
      (∀ i (hi : i < [sampleLeaf1, sampleLeaf2].length),
        ([sampleLeaf1, sampleLeaf2].get ⟨i, hi⟩).getValue =
            (ensureSize sampleNewList.toList
              [sampleLeaf1, sampleLeaf2].length).getD i .null →
        (childResults [sampleLeaf1, sampleLeaf2]
            (ensureSize sampleNewList.toList
              [sampleLeaf1, sampleLeaf2].length)).get? i =
            some ([sampleLeaf1, sampleLeaf2].get ⟨i, hi⟩) ∧
          ∀ e ∈ (setValue (.mk sampleListCore2 [sampleLeaf1, sampleLeaf2])
            sampleNewList).2, e.emitter.head? ≠ some i)) :=
  ⟨rfl, by decide,
    (qtListProperty_setValue_spec sampleListCore2 [sampleLeaf1, sampleLeaf2]
      sampleNewList rfl).2 (by decide)⟩

theorem dchildResults_get : ∀ (cs : List PTree)
    (valueMap : List (String × QVariant)) (i : Nat),
    (dchildResults cs valueMap).get? i =
      (cs.get? i).map (fun c => (setValue c (mapValue valueMap c.getName)).1) := by
  intro cs
  induction cs with
  | nil =>
    intro valueMap i
    rw [dchildResults]
    rfl
  | cons c cs ih =>
    intro valueMap i
    cases i with
    | zero =>
      rw [dchildResults]
      rfl
    | succ i =>
      rw [dchildResults]
      simp only [List.get?]
      rw [ih valueMap i]

theorem mapValue_absent (m : List (String × QVariant)) (nm : String)
    (h : ∀ p ∈ m, p.1 ≠ nm) : mapValue m nm = .null := by
  rw [mapValue]
  have hnone : m.find? (fun p => p.1 = nm) = none := by
    rw [List.find?_eq_none]
    intro p hp
    simp only [decide_eq_true_eq]
    exact h p hp
  rw [hnone]

/-- C5: `QtDictProperty::setValue(v)` with `v` equal to the current value
is a complete no-op.  Otherwise it stores `v`, gives every direct child
the mapping's entry for the child's name — null when the name is absent —
and the whole call emits exactly one signal of the dict node itself (the
final one; the children's emissions feed the dict's slot reentrantly but
it always finds the stored entry already equal). -/
theorem qtDictProperty_setValue_spec (core : NodeCore) (cs : List PTree)
    (v : QVariant) (h : core.type_ = .dictP) :
    (core.value_ = v → setValue (.mk core cs) v = (.mk core cs, [])) ∧
    (∀ nm, (∀ p ∈ v.toMap, p.1 ≠ nm) → mapValue v.toMap nm = .null) ∧
    (core.value_ ≠ v →
      setValue (.mk core cs) v =
        (.mk { core with value_ := v } (dchildResults cs v.toMap),
          dchildEvents cs v.toMap 0 ++ [⟨[], []⟩]) ∧
      (setValue (.mk core cs) v).2.filter (fun e => e.emitter == []) =
        [⟨[], []⟩] ∧
      (∀ i (hi : i < cs.length),
        (dchildResults cs v.toMap).get? i =
          some (setValue (cs.get ⟨i, hi⟩)
            (mapValue v.toMap (cs.get ⟨i, hi⟩).getName)).1)) := by
  refine ⟨fun heq => setValue_self (.mk core cs) v heq,
    fun nm hnm => mapValue_absent v.toMap nm hnm, ?_⟩
  intro hne
  have hrun := dictLoop_run cs v v.toMap 0 (fun c _ => emitOk_all c) rfl
  have hmain : setValue (.mk core cs) v =
      (.mk { core with value_ := v } (dchildResults cs v.toMap),
        dchildEvents cs v.toMap 0 ++ [⟨[], []⟩]) := by
    rw [setValue_dict core cs v h, if_neg hne, hrun]
  refine ⟨hmain, ?_, ?_⟩
  · rw [hmain]
    simp only [List.filter_append]
    have h1 : (dchildEvents cs v.toMap 0).filter
        (fun e => e.emitter == []) = [] := by
      rw [List.filter_eq_nil_iff]
      intro e he
      obtain ⟨k, _, hh⟩ := dchildEvents_head cs v.toMap 0 e he
      simp only [beq_iff_eq]
      intro hcon
      rw [hcon] at hh
      cases hh
    rw [h1]
    rfl
  · intro i hi
    rw [dchildResults_get cs v.toMap i, List.get?_eq_get hi]
    rfl

theorem qtDictProperty_setValue_spec_witness :
    sampleDictCore.type_ = .dictP ∧
    sampleDictCore.value_ ≠ sampleNewMap ∧
    (setValue (.mk sampleDictCore [sampleLeafA, sampleLeafB]) sampleNewMap =
        (.mk { sampleDictCore with value_ := sampleNewMap }
            (dchildResults [sampleLeafA, sampleLeafB] sampleNewMap.toMap),
          dchildEvents [sampleLeafA, sampleLeafB] sampleNewMap.toMap 0 ++
            [⟨[], []⟩]) ∧
      (setValue (.mk sampleDictCore [sampleLeafA, sampleLeafB])
          sampleNewMap).2.filter (fun e => e.emitter == []) = [⟨[], []⟩] ∧
      (∀ i (hi : i < [sampleLeafA, sampleLeafB].length),
        (dchildResults [sampleLeafA, sampleLeafB] sampleNewMap.toMap).get? i =
          some (setValue ([sampleLeafA, sampleLeafB].get ⟨i, hi⟩)
            (mapValue sampleNewMap.toMap
              ([sampleLeafA, sampleLeafB].get ⟨i, hi⟩).getName)).1)) ∧
    mapValue sampleNewMap.toMap "b" = .null ∧
    mapValue sampleNewMap.toMap "a" = .int 5 :=
  ⟨rfl, by decide,
    (qtDictProperty_setValue_spec sampleDictCore [sampleLeafA, sampleLeafB]
      sampleNewMap rfl).2.2 (by decide),
    (qtDictProperty_setValue_spec sampleDictCore [sampleLeafA, sampleLeafB]
      sampleNewMap rfl).2.1 "b" (by decide),
    by rw [mapValue]; rfl⟩

theorem lookupNode_cons (core : NodeCore) (L : List PTree) (j : Nat)
    (p : NodePath) (c : PTree) (h : L.get? j = some c) :
    lookupNode (.mk core L) (j :: p) = lookupNode c p := by
  rw [lookupNode]
  simp only [PTree.children_]
  rw [h]

theorem scvResults_length : ∀ (cs : List PTree) (x : String) (v : QVariant),
    (scvResults cs x v).length = cs.length := by
  intro cs x v
  induction cs with
  | nil => rw [scvResults]
  | cons c cs ih =>
    rw [scvResults, List.length_cons, List.length_cons, ih]

theorem scvResults_get : ∀ (cs : List PTree) (x : String) (v : QVariant) (j : Nat),
    (scvResults cs x v).get? j = (cs.get? j).map
      (fun c => if c.getType = .group then (QtGroupProperty_setChildValue c x v).1
        else if x = c.getName then (setValue c v).1
        else c) := by
  intro cs x v
  induction cs with
  | nil =>
    intro j
    rw [scvResults]
    rfl
  | cons c cs ih =>
    intro j
    cases j with
    | zero =>
      rw [scvResults]
      rfl
    | succ j =>
      rw [scvResults]
      simp only [List.get?]
      rw [ih j]

theorem processEvents_group_value (w : QVariant) (i : Nat) (ct : PTree) :
    ∀ evs : List VEvent, (processEvents .group w i ct evs).1 = w := by
  intro evs
  induction evs with
  | nil => rw [processEvents]
  | cons e rest ih =>
    rw [processEvents]
    have hs : (if e.emitter = [] then runSlot .group w i ct e.payload
        else (w, [])).1 = w := by
      split_ifs <;> rfl
    simp only
    rw [hs, ih]

theorem scvLoop_run : ∀ (cs : List PTree) (x : String) (v : QVariant)
    (i : Nat) (w : QVariant),
    (scvLoop cs x v i w).1 = scvResults cs x v ∧
      (scvLoop cs x v i w).2.1 = w := by
  intro cs x v
  induction cs with
  | nil =>
    intro i w
    rw [scvLoop, scvResults]
    exact ⟨rfl, rfl⟩
  | cons c cs ih =>
    intro i w
    rw [scvLoop, scvResults]
    have hpv := processEvents_group_value w i
      (if c.getType = .group then QtGroupProperty_setChildValue c x v
        else if x = c.getName then setValue c v
        else (c, [])).1
      (if c.getType = .group then QtGroupProperty_setChildValue c x v
        else if x = c.getName then setValue c v
        else (c, [])).2
    obtain ⟨h1, h2⟩ := ih (i + 1)
      (processEvents .group w i
        (if c.getType = .group then QtGroupProperty_setChildValue c x v
          else if x = c.getName then setValue c v
          else (c, [])).1
        (if c.getType = .group then QtGroupProperty_setChildValue c x v
          else if x = c.getName then setValue c v
          else (c, [])).2).1
    constructor
    · simp only
      rw [h1]
      congr 1
      split_ifs <;> rfl
    · simp only
      rw [h2, hpv]

theorem setChildValue_unfold (core : NodeCore) (cs : List PTree)
    (x : String) (v : QVariant) :
    QtGroupProperty_setChildValue (.mk core cs) x v =
      (.mk core (scvResults cs x v),
        (scvLoop cs x v 0 core.value_).2.2) := by
  rw [QtGroupProperty_setChildValue]
  obtain ⟨h1, h2⟩ := scvLoop_run cs x v 0 core.value_
  rw [h1, h2]

theorem scv_main : ∀ (t : PTree) (x : String) (v : QVariant),
    ((QtGroupProperty_setChildValue t x v).1.core = t.core ∧
      (QtGroupProperty_setChildValue t x v).1.children_.length =
        t.children_.length) ∧
    (∀ p n, ChainPath t p → lookupNode t p = some n →
      (n.getType ≠ .group → n.getName = x →
        lookupNode (QtGroupProperty_setChildValue t x v).1 p =
          some (setValue n v).1) ∧
      (n.getType ≠ .group → n.getName ≠ x →
        lookupNode (QtGroupProperty_setChildValue t x v).1 p = some n) ∧
      (n.getType = .group → ∃ n',
        lookupNode (QtGroupProperty_setChildValue t x v).1 p = some n' ∧
        n'.core = n.core ∧
        n'.children_.length = n.children_.length)) := by
  intro t
  induction t using PTree.inductionOn with
  | _ core cs ih =>
    intro x v
    rw [setChildValue_unfold]
    constructor
    · exact ⟨rfl, by
        simp only [PTree.children_]
        exact scvResults_length cs x v⟩
    · intro p n hcp hlk
      cases hcp with
      | here hget =>
        rename_i c j
        simp only [PTree.children_] at hget
        rw [lookupNode_cons core cs j [] c hget, lookupNode] at hlk
        injection hlk with hlk
        subst hlk
        have hget2 : (scvResults cs x v).get? j = some
            (if c.getType = .group then (QtGroupProperty_setChildValue c x v).1
              else if x = c.getName then (setValue c v).1
              else c) := by
          rw [scvResults_get cs x v j, hget]
          rfl
        refine ⟨?_, ?_, ?_⟩
        · intro hng hnx
          rw [lookupNode_cons core (scvResults cs x v) j [] (setValue c v).1
            (by rw [hget2, if_neg hng, if_pos hnx.symm]), lookupNode]
        · intro hng hnx
          rw [lookupNode_cons core (scvResults cs x v) j [] c
            (by rw [hget2, if_neg hng, if_neg (fun hh => hnx hh.symm)]),
            lookupNode]
        · intro hg
          refine ⟨(QtGroupProperty_setChildValue c x v).1, ?_, ?_, ?_⟩
          · rw [lookupNode_cons core (scvResults cs x v) j []
              (QtGroupProperty_setChildValue c x v).1
              (by rw [hget2, if_pos hg]), lookupNode]
          · exact ((ih c (List.get?_mem hget) x v).1).1
          · exact ((ih c (List.get?_mem hget) x v).1).2
      | there hget hgrp hcp2 =>
        rename_i c j p2
        simp only [PTree.children_] at hget
        rw [lookupNode_cons core cs j p2 c hget] at hlk
        have hget2 : (scvResults cs x v).get? j =
            some (QtGroupProperty_setChildValue c x v).1 := by
          rw [scvResults_get cs x v j, hget]
          simp only [Option.map]
          rw [if_pos hgrp]
        rw [lookupNode_cons core (scvResults cs x v) j p2
          _ hget2]
        exact (ih c (List.get?_mem hget) x v).2 p2 n hcp2 hlk

/-- C7: `QtGroupProperty::setChildValue(x, v)` visits every direct child:
group children are recursively delegated to (regardless of their own name
— their core data, in particular their value, is never touched), and every
non-group node named `x` reachable through an unbroken chain of groups has
`setValue(v)` applied — it does not stop at the first match.  Non-group
chain-reachable nodes with other names are untouched, and the group's own
core data is unchanged. -/
theorem qtGroupProperty_setChildValue_spec (t : PTree) (x : String)
    (v : QVariant) (hg : t.getType = .group) :
    ((QtGroupProperty_setChildValue t x v).1.core = t.core ∧
      (QtGroupProperty_setChildValue t x v).1.children_.length =
        t.children_.length) ∧
    (∀ p n, ChainPath t p → lookupNode t p = some n →
      (n.getType ≠ .group → n.getName = x →
        lookupNode (QtGroupProperty_setChildValue t x v).1 p =
          some (setValue n v).1) ∧
      (n.getType ≠ .group → n.getName ≠ x →
        lookupNode (QtGroupProperty_setChildValue t x v).1 p = some n) ∧
      (n.getType = .group → ∃ n',
        lookupNode (QtGroupProperty_setChildValue t x v).1 p = some n' ∧
        n'.core = n.core ∧
        n'.children_.length = n.children_.length)) :=
  scv_main t x v

theorem qtGroupProperty_setChildValue_spec_witness :
    sampleGroupTree2.getType = .group ∧
    (QtGroupProperty_setChildValue sampleGroupTree2 "x" (.int 5)).1 =
      .mk ⟨.group, "g", .null⟩
        [.mk ⟨.group, "h", .null⟩ [.mk ⟨.base, "x", .int 5⟩ []],
         .mk ⟨.base, "x", .int 5⟩ []] ∧
    (((QtGroupProperty_setChildValue sampleGroupTree2 "x" (.int 5)).1.core =
        sampleGroupTree2.core ∧
      (QtGroupProperty_setChildValue sampleGroupTree2 "x"
          (.int 5)).1.children_.length =
        sampleGroupTree2.children_.length) ∧
    (∀ p n, ChainPath sampleGroupTree2 p →
      lookupNode sampleGroupTree2 p = some n →
      (n.getType ≠ .group → n.getName = "x" →
        lookupNode (QtGroupProperty_setChildValue sampleGroupTree2 "x"
          (.int 5)).1 p = some (setValue n (.int 5)).1) ∧
      (n.getType ≠ .group → n.getName ≠ "x" →
        lookupNode (QtGroupProperty_setChildValue sampleGroupTree2 "x"
          (.int 5)).1 p = some n) ∧
      (n.getType = .group → ∃ n',
        lookupNode (QtGroupProperty_setChildValue sampleGroupTree2 "x"
          (.int 5)).1 p = some n' ∧
        n'.core = n.core ∧
        n'.children_.length = n.children_.length))) :=
  ⟨rfl,
    by simp [sampleGroupTree2, QtGroupProperty_setChildValue, scvLoop,
      setValue, processEvents, runSlot, liftEvent, PTree.getType,
      PTree.getName, PTree.getValue, PTree.core, QtListProperty_slotChildValueChange],
    qtGroupProperty_setChildValue_spec sampleGroupTree2 "x" (.int 5) rfl⟩
